import Mathlib

/-!
Verification of go-daemon components against their specification.

Each section embeds one Go package of the repository as pure Lean
definitions (strings as `List Char` / `String`, byte strings as
`List Nat`, Go maps as association lists) and proves the spec claims
about them.
-/

set_option maxHeartbeats 1000000
set_option maxRecDepth 8000

/-! ## djson.Pointer (src/djson/pointer.go) -/

namespace Djson

/-- Token escaping of `encodeToken` (src/djson/pointer.go): the replacer
built from the pairs `~` to `~0` and `/` to `~1`, applied left to right.
Both patterns are single ASCII characters, so the replacement is a
character-wise expansion. -/
def encodeChars : List Char → List Char
  | [] => []
  | c :: rest =>
    (if c = '~' then ['~', '0'] else if c = '/' then ['~', '1'] else [c]) ++ encodeChars rest

/-- Token unescaping of `decodeToken` (src/djson/pointer.go): the replacer
built from the pairs `~1` to `/` and `~0` to `~`, scanning left to right and
replacing the first matching pattern at each position. -/
def decodeChars : List Char → List Char
  | [] => []
  | [c] => [c]
  | c₁ :: c₂ :: rest =>
    if c₁ = '~' ∧ c₂ = '1' then '/' :: decodeChars rest
    else if c₁ = '~' ∧ c₂ = '0' then '~' :: decodeChars rest
    else c₁ :: decodeChars (c₂ :: rest)

/-- A JSON pointer (`djson.Pointer`): a list of string tokens. -/
abbrev Pointer := List String

/-- `Pointer.String` (src/djson/pointer.go): for each token write `/`
followed by the escaped token. -/
def pointerString (p : Pointer) : String :=
  ⟨(p.map (fun t => '/' :: encodeChars t.data)).flatten⟩

/-- Splitting on `/`, as done by `strings.Split(s, "/")`:
`splitSlash [] = [[]]` and a leading `/` starts a new empty part. -/
def splitSlash : List Char → List (List Char)
  | [] => [[]]
  | c :: rest =>
    let r := splitSlash rest
    if c = '/' then [] :: r
    else (c :: r.headI) :: r.tail

/-- `Pointer.Parse` (src/djson/pointer.go): the empty string is the empty
pointer; otherwise the string must start with `/`, and the rest is split
on `/` with each part unescaped. Errors are `none`. -/
def pointerParse (s : String) : Option Pointer :=
  match s.data with
  | [] => some []
  | c :: rest =>
    if c = '/' then some ((splitSlash rest).map fun l => (⟨decodeChars l⟩ : String))
    else none

theorem decodeChars_encodeChars (l : List Char) : decodeChars (encodeChars l) = l := by
  induction l with
  | nil => rfl
  | cons c rest ih =>
    by_cases h1 : c = '~'
    · subst h1; simpa [encodeChars, decodeChars] using ih
    · by_cases h2 : c = '/'
      · subst h2; simpa [encodeChars, decodeChars] using ih
      · cases hrest : encodeChars rest with
        | nil =>
          have hr : rest = [] := by
            have h' := ih
            rw [hrest] at h'
            simpa [decodeChars] using h'.symm
          subst hr
          simp [encodeChars, decodeChars, h1, h2]
        | cons d ds =>
          rw [encodeChars, if_neg h1, if_neg h2]
          rw [hrest] at ih ⊢
          simpa [decodeChars, h1] using ih

theorem slash_not_mem_encodeChars (l : List Char) : '/' ∉ encodeChars l := by
  induction l with
  | nil => simp [encodeChars]
  | cons c rest ih =>
    intro hmem
    rw [encodeChars] at hmem
    rcases List.mem_append.1 hmem with h | h
    · by_cases h1 : c = '~'
      · rw [if_pos h1] at h
        exact absurd h (by decide)
      · by_cases h2 : c = '/'
        · rw [if_neg h1, if_pos h2] at h
          exact absurd h (by decide)
        · rw [if_neg h1, if_neg h2] at h
          rw [List.mem_singleton] at h
          exact h2 h.symm
    · exact ih h

theorem splitSlash_ne_nil (l : List Char) : splitSlash l ≠ [] := by
  cases l with
  | nil => simp [splitSlash]
  | cons c rest =>
    rw [splitSlash]
    by_cases h : c = '/' <;> simp [h]

theorem splitSlash_append_of_no_slash (a l : List Char) (ha : '/' ∉ a) :
    splitSlash (a ++ l) = (a ++ (splitSlash l).headI) :: (splitSlash l).tail := by
  induction a with
  | nil =>
    simp only [List.nil_append]
    cases hsp : splitSlash l with
    | nil => exact absurd hsp (splitSlash_ne_nil l)
    | cons h t => simp
  | cons c a' ih =>
    have hc : c ≠ '/' := fun h => ha (by simp [h])
    have ha' : '/' ∉ a' := fun h => ha (by simp [h])
    rw [List.cons_append, splitSlash]
    simp only [if_neg hc]
    rw [ih ha']
    simp

theorem splitSlash_render (t : String) (ts : List String) :
    splitSlash (encodeChars t.data ++ (ts.map (fun u => '/' :: encodeChars u.data)).flatten)
      = encodeChars t.data :: ts.map (fun u => encodeChars u.data) := by
  induction ts generalizing t with
  | nil =>
    rw [List.map_nil, List.flatten_nil, List.append_nil]
    rw [show (encodeChars t.data : List Char) = encodeChars t.data ++ [] by simp]
    rw [splitSlash_append_of_no_slash _ [] (slash_not_mem_encodeChars t.data)]
    simp [splitSlash]
  | cons u us ih =>
    rw [List.map_cons, List.flatten_cons, List.cons_append]
    rw [splitSlash_append_of_no_slash _ _ (slash_not_mem_encodeChars t.data)]
    rw [show splitSlash ('/' :: (encodeChars u.data ++ (us.map (fun v => '/' :: encodeChars v.data)).flatten))
          = [] :: splitSlash (encodeChars u.data ++ (us.map (fun v => '/' :: encodeChars v.data)).flatten) by
        rw [splitSlash]; simp]
    rw [ih u]
    simp

/-- C1. Pointer round-trip: for every pointer (every finite list of arbitrary
string tokens, including tokens containing `~` and `/`), parsing the rendered
textual form yields the pointer again; moreover the literal cases hold:
the empty pointer renders to the empty string, the pointer
`["foo/bar", "~x"]` renders to `/foo~1bar/~0x`, and `/~01/~10` parses to
`["~1", "/0"]`. -/
theorem pointer_roundtrip :
    (∀ p : Pointer, pointerParse (pointerString p) = some p)
    ∧ pointerString [] = ""
    ∧ pointerString ["foo/bar", "~x"] = "/foo~1bar/~0x"
    ∧ pointerParse "/~01/~10" = some ["~1", "/0"] := by
  refine ⟨?_, rfl, by decide, by decide⟩
  intro p
  cases p with
  | nil => rfl
  | cons t ts =>
    have hred : pointerParse (pointerString (t :: ts))
        = some ((splitSlash (encodeChars t.data
            ++ (ts.map (fun u => '/' :: encodeChars u.data)).flatten)).map
              (fun l => (⟨decodeChars l⟩ : String))) := rfl
    rw [hred, splitSlash_render]
    congr 1
    rw [List.map_cons, List.map_map]
    congr 1
    · show (⟨decodeChars (encodeChars t.data)⟩ : String) = t
      rw [decodeChars_encodeChars]
    · conv_rhs => rw [show ts = ts.map id from (List.map_id ts).symm]
      apply List.map_congr_left
      intro u _
      show (⟨decodeChars (encodeChars u.data)⟩ : String) = u
      rw [decodeChars_encodeChars]

end Djson

/-! ## dcrypto PKCS#5 padding (src/dcrypto/pkcs5.go) -/

namespace Dcrypto

/-- Result of `UnpadPKCS5`: a value, an error return, or a Go runtime panic
(out-of-range index). -/
inductive UnpadResult where
  | ok (data : List Nat)
  | err (msg : String)
  | panicked
deriving DecidableEq

/-- `PadPKCS5` (src/dcrypto/pkcs5.go): append `paddingSize` copies of the
byte `byte(paddingSize)`, where `paddingSize = blockSize - len(data) % blockSize`.
Bytes are naturals below 256; the Go conversion `byte(paddingSize)` truncates
modulo 256. -/
def PadPKCS5 (data : List Nat) (blockSize : Nat) : List Nat :=
  let paddingSize := blockSize - data.length % blockSize
  data ++ List.replicate paddingSize (paddingSize % 256)

/-- `UnpadPKCS5` (src/dcrypto/pkcs5.go): reject lengths that are not a
multiple of `blockSize`; read the last byte as the padding size, reject it
when it exceeds the data length or the block size; otherwise drop that many
trailing bytes.  Indexing `data[dataSize-1]` on empty data panics in Go,
modelled by `UnpadResult.panicked`. -/
def UnpadPKCS5 (data : List Nat) (blockSize : Nat) : UnpadResult :=
  let dataSize := data.length
  if dataSize % blockSize ≠ 0 then .err "truncated data"
  else
    match data.getLast? with
    | none => .panicked
    | some paddingSize =>
      if paddingSize > dataSize ∨ paddingSize > blockSize then .err "invalid padding size"
      else .ok (data.take (dataSize - paddingSize))

/-- `UnpadPKCS5` returned an error (not a value and not a panic). -/
def UnpadResult.isErr : UnpadResult → Bool
  | .err _ => true
  | _ => false

theorem getLast?_append_replicate (l : List Nat) (k v : Nat) (hk : 1 ≤ k) :
    (l ++ List.replicate k v).getLast? = some v := by
  rw [List.getLast?_append_of_ne_nil]
  · cases k with
    | zero => omega
    | succ k' =>
      rw [List.replicate_succ']
      simp
  · simp
    omega

theorem padPKCS5_length (x : List Nat) (b : Nat) (hb : 1 ≤ b) :
    (PadPKCS5 x b).length = b * (x.length / b + 1) := by
  have hmod : x.length % b < b := Nat.mod_lt _ (by omega)
  have hdm := Nat.div_add_mod x.length b
  have hsucc : b * (x.length / b + 1) = b * (x.length / b) + b := Nat.mul_succ b _
  simp only [PadPKCS5, List.length_append, List.length_replicate]
  omega

/-- C3 counterexample: the claim quantifies over every block size `b ≥ 1`,
but with `b = 256` and empty input the padding size 256 is truncated to the
byte 0, and unpadding returns the 256 zero bytes unchanged instead of the
empty input. -/
theorem pkcs5_roundtrip_counterexample :
    UnpadPKCS5 (PadPKCS5 [] 256) 256 ≠ UnpadResult.ok [] := by decide

/-- C3 (amended: block sizes restricted to `1 ≤ b ≤ 255`, so the padding
size fits in a byte). For every byte string `x` and block size `b` in that
range, `PadPKCS5 x b` has length a non-zero multiple of `b`, and
`UnpadPKCS5 (PadPKCS5 x b) b` succeeds returning `x`.  Literals: padding the
empty string with block size 4 gives four `0x04` bytes, and padding `abcd`
appends a full extra block of four `0x04` bytes. -/
theorem pkcs5_roundtrip :
    (∀ (x : List Nat) (b : Nat), 1 ≤ b → b ≤ 255 →
      (PadPKCS5 x b).length % b = 0 ∧ (PadPKCS5 x b).length ≠ 0
      ∧ UnpadPKCS5 (PadPKCS5 x b) b = UnpadResult.ok x)
    ∧ PadPKCS5 [] 4 = [4, 4, 4, 4]
    ∧ PadPKCS5 [97, 98, 99, 100] 4 = [97, 98, 99, 100, 4, 4, 4, 4] := by
  refine ⟨?_, by decide, by decide⟩
  intro x b hb1 hb255
  have hmod : x.length % b < b := Nat.mod_lt _ (by omega)
  set ps := b - x.length % b with hps
  have hps1 : 1 ≤ ps := by omega
  have hpsb : ps ≤ b := by omega
  have hps256 : ps % 256 = ps := Nat.mod_eq_of_lt (by omega)
  have hlen : (PadPKCS5 x b).length = b * (x.length / b + 1) := padPKCS5_length x b hb1
  have hlenmod : (PadPKCS5 x b).length % b = 0 := by
    rw [hlen]; exact Nat.mul_mod_right b _
  have hlen' : (PadPKCS5 x b).length = x.length + ps := by
    simp [PadPKCS5, ← hps, hps256]
  have hlenne : (PadPKCS5 x b).length ≠ 0 := by
    rw [hlen']; omega
  refine ⟨hlenmod, hlenne, ?_⟩
  have hlast : (PadPKCS5 x b).getLast? = some ps := by
    rw [PadPKCS5]
    simp only [← hps, hps256]
    exact getLast?_append_replicate x ps ps hps1
  rw [UnpadPKCS5]
  simp only [hlenmod, ne_eq, not_true_eq_false, if_false, ite_false]
  split
  · next hnone => rw [hlast] at hnone; cases hnone
  · next p hp =>
    rw [hlast] at hp
    cases hp
    have hnotbig : ¬(ps > (PadPKCS5 x b).length ∨ ps > b) := by
      rw [hlen']; omega
    rw [if_neg hnotbig]
    congr 1
    rw [hlen']
    have : x.length + ps - ps = x.length := by omega
    rw [this, PadPKCS5]
    simp only [← hps, hps256]
    exact List.take_left x _

/-- Closed witness for the amended C3 round-trip at `x = [1, 2, 3]`, `b = 4`. -/
theorem pkcs5_roundtrip_witness :
    (PadPKCS5 [1, 2, 3] 4).length % 4 = 0 ∧ (PadPKCS5 [1, 2, 3] 4).length ≠ 0
    ∧ UnpadPKCS5 (PadPKCS5 [1, 2, 3] 4) 4 = UnpadResult.ok [1, 2, 3] :=
  pkcs5_roundtrip.1 [1, 2, 3] 4 (by decide) (by decide)

/-- C4 counterexample: the input `[1, 2, 3, 4]` with block size 4 declares a
padding length of 4, but the trailing padding bytes `1, 2, 3` do not all
equal 4; the claim demands an error, yet `UnpadPKCS5` succeeds (returning
the empty remainder). -/
theorem unpad_inconsistent_counterexample :
    UnpadPKCS5 [1, 2, 3, 4] 4 = UnpadResult.ok []
    ∧ (UnpadPKCS5 [1, 2, 3, 4] 4).isErr = false := by decide

/-- C4 (amended). For every block size `b ≥ 1`: `UnpadPKCS5` panics (rather
than returning an error) exactly on the empty input; it returns an error
exactly when the input length is not a multiple of `b`, or the last byte —
the declared padding length — exceeds `b` or the input length.  It performs
no consistency check of the trailing padding bytes, and a declared padding
length of 0 succeeds, returning the input unchanged. -/
theorem unpad_error_characterization :
    (∀ (data : List Nat) (b : Nat), 1 ≤ b →
      (UnpadPKCS5 data b = UnpadResult.panicked ↔ data = [])
      ∧ ((UnpadPKCS5 data b).isErr = true ↔
          data.length % b ≠ 0
          ∨ (∃ p, data.getLast? = some p ∧ (p > data.length ∨ p > b))))
    ∧ (∀ (data : List Nat) (b : Nat), data ≠ [] → data.getLast? = some 0 →
        data.length % b = 0 → UnpadPKCS5 data b = UnpadResult.ok data) := by
  constructor
  · intro data b hb
    by_cases hm : data.length % b = 0
    · rw [UnpadPKCS5]
      simp only [hm, ne_eq, not_true_eq_false, if_false, ite_false]
      constructor
      · split
        · next hl =>
          simp [List.getLast?_eq_none_iff.1 hl]
        · next p hl =>
          have hne : data ≠ [] := by
            intro h; rw [h] at hl; cases hl
          split
          · simp [hne]
          · simp [hne]
      · split
        · next hl =>
          simp only [UnpadResult.isErr]
          constructor
          · intro h; cases h
          · rintro (h | ⟨p, hp, _⟩)
            · exact h.elim
            · rw [hl] at hp; cases hp
        · next p hl =>
          by_cases hbig : p > data.length ∨ p > b
          · rw [if_pos hbig]
            simp only [UnpadResult.isErr, true_iff]
            exact Or.inr ⟨p, hl, hbig⟩
          · rw [if_neg hbig]
            simp only [UnpadResult.isErr, Bool.false_eq_true, false_iff]
            rintro (h | ⟨q, hq, hqbig⟩)
            · exact h.elim
            · rw [hl] at hq
              cases hq
              exact hbig hqbig
    · rw [UnpadPKCS5, if_pos hm]
      constructor
      · constructor
        · intro h; cases h
        · intro h
          subst h
          exact absurd (Nat.zero_mod b) hm
      · simp only [UnpadResult.isErr, true_iff]
        exact Or.inl hm
  · intro data b hne hlast hm
    rw [UnpadPKCS5]
    simp only [hm, ne_eq, not_true_eq_false, if_false, ite_false]
    split
    · next hl => rw [hlast] at hl; cases hl
    · next p hp =>
      rw [hlast] at hp
      cases hp
      have hz : ¬((0 : Nat) > data.length ∨ (0 : Nat) > b) := by omega
      rw [if_neg hz]
      simp

/-- Closed witness for the amended C4 characterization: at `b = 4`, the
input `[5, 5, 5, 5]` (declared padding length 5 exceeds both) errors, the
empty input panics, and `[0, 0, 0, 0]` (declared length 0) succeeds
unchanged. -/
theorem unpad_error_characterization_witness :
    (UnpadPKCS5 [5, 5, 5, 5] 4).isErr = true
    ∧ UnpadPKCS5 ([] : List Nat) 4 = UnpadResult.panicked
    ∧ UnpadPKCS5 [0, 0, 0, 0] 4 = UnpadResult.ok [0, 0, 0, 0] :=
  ⟨((unpad_error_characterization.1 [5, 5, 5, 5] 4 (by decide)).2).2
      (Or.inr ⟨5, by decide, by decide⟩),
   ((unpad_error_characterization.1 [] 4 (by decide)).1).2 rfl,
   unpad_error_characterization.2 [0, 0, 0, 0] 4 (by decide) (by decide) (by decide)⟩

end Dcrypto

/-! ## Go string ordering

`sort.Strings` and Go's `<` on `string` compare byte-wise
lexicographically; on UTF-8 data this coincides with the code-point
order on `List Char` used here. -/

namespace GoOrd

/-- Go string comparison `a < b`: lexicographic, a strict prefix is
smaller. -/
def ltChars : List Char → List Char → Bool
  | _, [] => false
  | [], _ :: _ => true
  | a :: as, b :: bs =>
    if a < b then true
    else if b < a then false
    else ltChars as bs

/-- `a ≤ b` for Go strings: `b` is not smaller than `a`. The sorted
order produced by `sort.Strings` / `sort.Slice` with a strict less
function. -/
def strLe (a b : String) : Prop := ltChars b.data a.data = false

instance : DecidableRel strLe := fun a b =>
  inferInstanceAs (Decidable (ltChars b.data a.data = false))

theorem ltChars_irrefl (l : List Char) : ltChars l l = false := by
  induction l with
  | nil => rfl
  | cons a as ih => simp [ltChars, lt_irrefl, ih]

theorem ltChars_trans {a b c : List Char} (hab : ltChars a b = true)
    (hbc : ltChars b c = true) : ltChars a c = true := by
  induction a generalizing b c with
  | nil =>
    cases b with
    | nil => exact absurd hab (by simp [ltChars])
    | cons y ys =>
      cases c with
      | nil => exact absurd hbc (by simp [ltChars])
      | cons z zs => simp [ltChars]
  | cons x xs ih =>
    cases b with
    | nil => exact absurd hab (by simp [ltChars])
    | cons y ys =>
      cases c with
      | nil => exact absurd hbc (by simp [ltChars])
      | cons z zs =>
        rw [ltChars] at hab hbc ⊢
        by_cases hxy : x < y
        · by_cases hyz : y < z
          · rw [if_pos (lt_trans hxy hyz)]
          · by_cases hzy : z < y
            · rw [if_neg hyz, if_pos hzy] at hbc; cases hbc
            · have hyz' : y = z := le_antisymm (not_lt.1 hzy) (not_lt.1 hyz)
              subst hyz'
              rw [if_pos hxy]
        · by_cases hyx : y < x
          · rw [if_neg hxy, if_pos hyx] at hab; cases hab
          · have hxy' : x = y := le_antisymm (not_lt.1 hyx) (not_lt.1 hxy)
            subst hxy'
            rw [if_neg (lt_irrefl x), if_neg (lt_irrefl x)] at hab
            by_cases hxz : x < z
            · rw [if_pos hxz]
            · by_cases hzx : z < x
              · rw [if_neg hxz, if_pos hzx] at hbc; cases hbc
              · have hxz' : x = z := le_antisymm (not_lt.1 hzx) (not_lt.1 hxz)
                subst hxz'
                rw [if_neg (lt_irrefl x), if_neg (lt_irrefl x)] at hbc ⊢
                exact ih hab hbc

theorem eq_of_ltChars_false {a b : List Char} (hab : ltChars a b = false)
    (hba : ltChars b a = false) : a = b := by
  induction a generalizing b with
  | nil =>
    cases b with
    | nil => rfl
    | cons y ys => simp [ltChars] at hab
  | cons x xs ih =>
    cases b with
    | nil => simp [ltChars] at hba
    | cons y ys =>
      rw [ltChars] at hab hba
      by_cases hxy : x < y
      · rw [if_pos hxy] at hab; cases hab
      · by_cases hyx : y < x
        · rw [if_pos hyx] at hba; cases hba
        · have hxy' : x = y := le_antisymm (not_lt.1 hyx) (not_lt.1 hxy)
          subst hxy'
          rw [if_neg (lt_irrefl x), if_neg (lt_irrefl x)] at hab hba
          rw [ih hab hba]

instance : IsTrans String strLe :=
  ⟨by
    intro a b c hab hbc
    show ltChars c.data a.data = false
    cases hca : ltChars c.data a.data with
    | false => rfl
    | true =>
      cases hab' : ltChars a.data b.data with
      | true =>
        have : ltChars c.data b.data = true := ltChars_trans hca hab'
        rw [hbc] at this
        cases this
      | false =>
        have heq : a.data = b.data := eq_of_ltChars_false hab' hab
        rw [heq] at hca
        rw [hbc] at hca
        cases hca⟩

instance : IsTotal String strLe :=
  ⟨by
    intro a b
    cases h : ltChars b.data a.data with
    | false => exact Or.inl h
    | true =>
      right
      show ltChars a.data b.data = false
      cases h2 : ltChars a.data b.data with
      | false => rfl
      | true =>
        have := ltChars_trans h h2
        rw [ltChars_irrefl] at this
        cases this⟩

end GoOrd

/-! ## influx line protocol (src/influx/line_protocol.go, src/influx/point.go) -/

namespace Influx

open GoOrd

/-- Field values covered by the claims: Go `int` family, `bool` and
`string` fields of `influx.Fields` (the source also formats floats and
byte strings; those variants are outside every claim). -/
inductive FieldValue where
  | intVal (i : Int)
  | boolVal (b : Bool)
  | strVal (s : String)
deriving DecidableEq

/-- `influx.Point` (src/influx/point.go): tag and field maps are modelled
as association lists with distinct keys. The timestamp is `UnixNano`. -/
structure Point where
  measurement : String
  tags : List (String × String)
  fields : List (String × FieldValue)
  timestamp : Option Int
deriving DecidableEq

/-- `measurementReplacer` (src/influx/line_protocol.go): escape `,` and
space with a backslash. -/
def escapeMeasurementChars : List Char → List Char
  | [] => []
  | c :: rest =>
    (if c = ',' ∨ c = ' ' then ['\\', c] else [c]) ++ escapeMeasurementChars rest

/-- `keyReplacer` (src/influx/line_protocol.go): escape `,`, `=` and space
with a backslash. -/
def escapeKeyChars : List Char → List Char
  | [] => []
  | c :: rest =>
    (if c = ',' ∨ c = '=' ∨ c = ' ' then ['\\', c] else [c]) ++ escapeKeyChars rest

/-- `stringFieldReplacer` (src/influx/line_protocol.go): escape `"` with a
backslash. -/
def escapeStringChars : List Char → List Char
  | [] => []
  | c :: rest => (if c = '"' then ['\\', c] else [c]) ++ escapeStringChars rest

/-- `encodeMeasurement` (src/influx/line_protocol.go). -/
def encodeMeasurement (m : String) : String := ⟨escapeMeasurementChars m.data⟩

/-- `encodeKey` (src/influx/line_protocol.go), used for tag keys, tag
values, and field keys. -/
def encodeKey (k : String) : String := ⟨escapeKeyChars k.data⟩

/-- `encodeTags` (src/influx/line_protocol.go): collect the map keys, sort
them with `sort.Strings` (byte-lexicographic), and emit one `,key=value`
group per key, values looked up in the map. -/
def encodeTags (tags : List (String × String)) : String :=
  String.join ((List.insertionSort strLe (tags.map Prod.fst)).map
    (fun key => "," ++ encodeKey key ++ "=" ++ encodeKey ((tags.lookup key).getD "")))

/-- `encodeFieldValue` (src/influx/line_protocol.go), restricted to the
variants of `FieldValue`: integers as `%di`, booleans as `%v`, strings
quoted with inner `"` escaped. -/
def encodeFieldValue : FieldValue → String
  | .intVal i => toString i ++ "i"
  | .boolVal b => if b then "true" else "false"
  | .strVal s => "\"" ++ (⟨escapeStringChars s.data⟩ : String) ++ "\""

/-- `encodeFields` (src/influx/line_protocol.go): sorted field keys joined
with `,` as `key=value`. -/
def encodeFields (fields : List (String × FieldValue)) : String :=
  String.intercalate "," ((List.insertionSort strLe (fields.map Prod.fst)).map
    (fun key => encodeKey key ++ "=" ++ encodeFieldValue ((fields.lookup key).getD (.strVal ""))))

/-- `EncodePoint` (src/influx/line_protocol.go): measurement, tag section
only when the tag map is non-empty, one unconditional space, field section,
and an optional ` timestamp_ns` suffix. -/
def EncodePoint (p : Point) : String :=
  encodeMeasurement p.measurement
    ++ (if p.tags.length > 0 then encodeTags p.tags else "")
    ++ " " ++ encodeFields p.fields
    ++ (match p.timestamp with
        | some ts => " " ++ toString ts
        | none => "")

/-- `EncodePoints` (src/influx/line_protocol.go): each point on its own
`\n`-terminated line. -/
def EncodePoints (ps : List Point) : String :=
  String.join (ps.map (fun p => EncodePoint p ++ "\n"))

/-- The encoding C2 describes, stated from the spec's words: the escaped
measurement, then — only when the tag map is non-empty — one `,tagk=tagv`
group per tag with tags ordered by byte-lexicographic key comparison, then
exactly one unconditional space, then the fields ordered by key as
`key=value` joined with `,`. -/
def specLineProtocol (p : Point) : String :=
  let sortedTags := List.insertionSort (fun a b : String × String => strLe a.1 b.1) p.tags
  let sortedFields := List.insertionSort (fun a b : String × FieldValue => strLe a.1 b.1) p.fields
  encodeMeasurement p.measurement
    ++ String.join (sortedTags.map (fun kv => "," ++ encodeKey kv.1 ++ "=" ++ encodeKey kv.2))
    ++ " "
    ++ String.intercalate "," (sortedFields.map (fun kv => encodeKey kv.1 ++ "=" ++ encodeFieldValue kv.2))

theorem map_fst_orderedInsert {α : Type} (x : String × α) (l : List (String × α)) :
    (List.orderedInsert (fun a b : String × α => strLe a.1 b.1) x l).map Prod.fst
      = List.orderedInsert strLe x.1 (l.map Prod.fst) := by
  induction l with
  | nil => rfl
  | cons y ys ih =>
    simp only [List.orderedInsert]
    rw [apply_ite (List.map Prod.fst)]
    by_cases h : strLe x.1 y.1
    · rw [if_pos h, if_pos h]
      rfl
    · rw [if_neg h, if_neg h, List.map_cons, ih]

theorem map_fst_insertionSort {α : Type} (l : List (String × α)) :
    (List.insertionSort (fun a b : String × α => strLe a.1 b.1) l).map Prod.fst
      = List.insertionSort strLe (l.map Prod.fst) := by
  induction l with
  | nil => rfl
  | cons x xs ih =>
    simp only [List.insertionSort, List.map_cons]
    rw [map_fst_orderedInsert, ih]

theorem lookup_eq_some_of_mem {α : Type} (m : List (String × α))
    (hnd : (m.map Prod.fst).Nodup) (kv : String × α) (hm : kv ∈ m) :
    m.lookup kv.1 = some kv.2 := by
  induction m with
  | nil => cases hm
  | cons hd rest ih =>
    obtain ⟨k0, v0⟩ := hd
    rcases List.mem_cons.1 hm with heq | hmem
    · subst heq
      simp [List.lookup]
    · have hne : kv.1 ≠ k0 := by
        intro h
        have : kv.1 ∈ rest.map Prod.fst := List.mem_map_of_mem Prod.fst hmem
        rw [List.map_cons] at hnd
        exact (List.nodup_cons.1 hnd).1 (h ▸ this)
      have htl : (rest.map Prod.fst).Nodup := by
        rw [List.map_cons] at hnd
        exact (List.nodup_cons.1 hnd).2
      have hbeq : (kv.1 == k0) = false := beq_eq_false_iff_ne.2 hne
      rw [List.lookup, hbeq]
      exact ih htl hmem

theorem sorted_keys_lookup_map {α : Type} (m : List (String × α))
    (hnd : (m.map Prod.fst).Nodup) (f : String → α → String) (d : α) :
    (List.insertionSort strLe (m.map Prod.fst)).map
        (fun k => f k ((m.lookup k).getD d))
      = (List.insertionSort (fun a b : String × α => strLe a.1 b.1) m).map
          (fun kv => f kv.1 kv.2) := by
  rw [← map_fst_insertionSort, List.map_map]
  apply List.map_congr_left
  intro kv hkv
  have hkv' : kv ∈ m :=
    (List.perm_insertionSort (fun a b : String × α => strLe a.1 b.1) m).subset hkv
  simp [Function.comp, lookup_eq_some_of_mem m hnd kv hkv']

/-- C2. Line-protocol encoding of a single point: for every point with
distinct tag keys, distinct field keys, a non-empty field map and no
timestamp, the encoder output is exactly the claim's format (escaped
measurement, tag section only when tags are non-empty with tags in
byte-lexicographic key order, one unconditional space, fields in key order
joined with `,`, integers as `<digits>i`, booleans as `true`/`false`,
strings quoted with inner `"` escaped); and the literal point
`("m2", {}, {a:123, b:true, c:"foo"})` encodes to `m2 a=123i,b=true,c="foo"`. -/
theorem line_protocol_single_point :
    (∀ p : Point, p.fields ≠ [] → (p.tags.map Prod.fst).Nodup →
      (p.fields.map Prod.fst).Nodup → p.timestamp = none →
      EncodePoint p = specLineProtocol p)
    ∧ EncodePoint ⟨"m2", [], [("a", .intVal 123), ("b", .boolVal true), ("c", .strVal "foo")], none⟩
        = "m2 a=123i,b=true,c=\"foo\"" := by
  constructor
  · intro p _ htags hfields hts
    rw [EncodePoint, specLineProtocol, hts]
    have htagseq : (if p.tags.length > 0 then encodeTags p.tags else "")
        = String.join ((List.insertionSort (fun a b : String × String => strLe a.1 b.1) p.tags).map
            (fun kv => "," ++ encodeKey kv.1 ++ "=" ++ encodeKey kv.2)) := by
      cases htg : p.tags with
      | nil => simp [String.join]
      | cons t ts =>
        rw [if_pos (by simp), encodeTags, ← htg]
        rw [sorted_keys_lookup_map p.tags htags
          (fun k v => "," ++ encodeKey k ++ "=" ++ encodeKey v) ""]
    have hfieldseq : encodeFields p.fields
        = String.intercalate ","
            ((List.insertionSort (fun a b : String × FieldValue => strLe a.1 b.1) p.fields).map
              (fun kv => encodeKey kv.1 ++ "=" ++ encodeFieldValue kv.2)) := by
      rw [encodeFields]
      rw [sorted_keys_lookup_map p.fields hfields
        (fun k v => encodeKey k ++ "=" ++ encodeFieldValue v) (.strVal "")]
    rw [htagseq, hfieldseq]
    simp
  · decide

/-- Closed witness for C2 at a point with one tag and two fields. -/
theorem line_protocol_single_point_witness :
    EncodePoint ⟨"m", [("x", "foo")], [("b", .boolVal false), ("a", .intVal (-1))], none⟩
      = specLineProtocol ⟨"m", [("x", "foo")], [("b", .boolVal false), ("a", .intVal (-1))], none⟩ :=
  line_protocol_single_point.1 _ (by decide) (by decide) (by decide) rfl

end Influx

/-! ## influx metrics client (src/influx/client.go) -/

namespace Influx

/-- Outcome of the HTTP round trip performed by `Client.sendPoints`:
either `HTTPClient.Do` fails, or a response with some status arrives. -/
inductive HttpOutcome where
  | requestError
  | response (status : Nat)
deriving DecidableEq

/-- The success test of `Client.sendPoints` (src/influx/client.go): a
request error fails, and a response fails unless `200 <= status < 300`. -/
def sendPointsOk : HttpOutcome → Bool
  | .requestError => false
  | .response status => decide (200 ≤ status) && decide (status < 300)

/-- `Client.flush` (src/influx/client.go): no-op on an empty buffer;
otherwise send the points (one request whose body is their line-protocol
encoding — returned as the second component, `none` when no request was
made) and clear the buffer only on success, keeping it unchanged on
failure. -/
def flush (points : List Point) (outcome : HttpOutcome) : List Point × Option String :=
  if points.length = 0 then (points, none)
  else if sendPointsOk outcome then ([], some (EncodePoints points))
  else (points, some (EncodePoints points))

/-- `tags[key] = value` on a Go map, modelled on an association list:
overwrite the existing entry or append a new one. -/
def upsert : List (String × String) → String → String → List (String × String)
  | [], k, v => [(k, v)]
  | (k0, v0) :: rest, k, v =>
    if k0 = k then (k, v) :: rest else (k0, v0) :: upsert rest k v

/-- One of the two insertion loops of `Client.finalizePoint`
(src/influx/client.go): add every entry with a non-empty value to the
accumulated map. -/
def addTagsNonEmpty (acc : List (String × String)) (entries : List (String × String)) :
    List (String × String) :=
  entries.foldl (fun acc kv => if kv.2 ≠ "" then upsert acc kv.1 kv.2 else acc) acc

/-- `Client.finalizePoint` (src/influx/client.go): rebuild the point's
tags starting from the client's base tags and then the point's own tags,
skipping empty values in both loops. -/
def finalizePoint (baseTags : List (String × String)) (p : Point) : Point :=
  { p with tags := addTagsNonEmpty (addTagsNonEmpty [] baseTags) p.tags }

/-- `Client.enqueuePoints` (src/influx/client.go): finalize each incoming
point, append to the buffer, and flush when the buffer has reached the
batch size.  Returns the new buffer, whether `flush` was invoked, and the
body of the request `flush` sent (if any). -/
def enqueuePoints (baseTags : List (String × String)) (batchSize : Nat)
    (buffer incoming : List Point) (outcome : HttpOutcome) :
    List Point × Bool × Option String :=
  let buffer' := buffer ++ incoming.map (finalizePoint baseTags)
  if batchSize ≤ buffer'.length then
    ((flush buffer' outcome).1, true, (flush buffer' outcome).2)
  else (buffer', false, none)

/-- C6. Metrics flush atomicity: flushing an empty buffer performs no
request and leaves the buffer unchanged; flushing a non-empty buffer sends
one request whose body is the line-protocol encoding of the buffered
points, clears the buffer on a 2xx response, and keeps it unchanged on a
request error or a non-2xx status. -/
theorem metrics_flush_atomicity :
    ∀ (buffer : List Point) (o : HttpOutcome),
      (buffer = [] → flush buffer o = (buffer, none))
      ∧ (buffer ≠ [] → (flush buffer o).2 = some (EncodePoints buffer))
      ∧ (buffer ≠ [] → ∀ s, o = .response s → 200 ≤ s → s < 300 → (flush buffer o).1 = [])
      ∧ (buffer ≠ [] → o = .requestError → (flush buffer o).1 = buffer)
      ∧ (buffer ≠ [] → ∀ s, o = .response s → ¬(200 ≤ s ∧ s < 300) →
          (flush buffer o).1 = buffer) := by
  intro buffer o
  refine ⟨?_, ?_, ?_, ?_, ?_⟩
  · intro h
    simp [flush, h]
  · intro h
    have hlen : ¬buffer.length = 0 := by simpa using h
    rw [flush, if_neg hlen]
    by_cases hok : sendPointsOk o = true
    · rw [if_pos hok]
    · rw [if_neg hok]
  · intro h s hs h200 h300
    subst hs
    have hlen : ¬buffer.length = 0 := by simpa using h
    have hok : sendPointsOk (.response s) = true := by
      simp [sendPointsOk, h200, h300]
    rw [flush, if_neg hlen, if_pos hok]
  · intro h ho
    subst ho
    have hlen : ¬buffer.length = 0 := by simpa using h
    rw [flush, if_neg hlen, if_neg (by simp [sendPointsOk])]
  · intro h s hs hbad
    subst hs
    have hlen : ¬buffer.length = 0 := by simpa using h
    have hok : ¬sendPointsOk (.response s) = true := by
      simp [sendPointsOk]
      omega
    rw [flush, if_neg hlen, if_neg hok]

/-- Closed witness for C6: a one-point buffer is cleared by a 204 response
and retained on a request error; the request body is the encoded buffer. -/
theorem metrics_flush_atomicity_witness :
    flush [⟨"m", [], [("a", .intVal 1)], none⟩] (.response 204)
      = ([], some (EncodePoints [⟨"m", [], [("a", .intVal 1)], none⟩]))
    ∧ flush [⟨"m", [], [("a", .intVal 1)], none⟩] .requestError
      = ([⟨"m", [], [("a", .intVal 1)], none⟩],
         some (EncodePoints [⟨"m", [], [("a", .intVal 1)], none⟩])) := by
  constructor
  · exact Prod.ext
      ((metrics_flush_atomicity [⟨"m", [], [("a", .intVal 1)], none⟩] (.response 204)).2.2.1 (by decide) 204 rfl (by decide) (by decide))
      ((metrics_flush_atomicity [⟨"m", [], [("a", .intVal 1)], none⟩] (.response 204)).2.1 (by decide))
  · exact Prod.ext
      ((metrics_flush_atomicity [⟨"m", [], [("a", .intVal 1)], none⟩] .requestError).2.2.2.1 (by decide) rfl)
      ((metrics_flush_atomicity [⟨"m", [], [("a", .intVal 1)], none⟩] .requestError).2.1 (by decide))

end Influx

namespace Influx

theorem lookup_upsert_self (m : List (String × String)) (k v : String) :
    (upsert m k v).lookup k = some v := by
  induction m with
  | nil => simp [upsert, List.lookup]
  | cons hd rest ih =>
    obtain ⟨k0, v0⟩ := hd
    by_cases h : k0 = k
    · simp [upsert, h, List.lookup]
    · have hbeq : (k == k0) = false := beq_eq_false_iff_ne.2 (fun he => h he.symm)
      rw [upsert, if_neg h, List.lookup, hbeq]
      exact ih

theorem lookup_upsert_other (m : List (String × String)) (k v k' : String)
    (h : k' ≠ k) : (upsert m k v).lookup k' = m.lookup k' := by
  induction m with
  | nil =>
    have hbeq : (k' == k) = false := beq_eq_false_iff_ne.2 h
    simp [upsert, List.lookup, hbeq]
  | cons hd rest ih =>
    obtain ⟨k0, v0⟩ := hd
    by_cases h0 : k0 = k
    · subst h0
      have hbeq : (k' == k0) = false := beq_eq_false_iff_ne.2 h
      rw [upsert, if_pos rfl, List.lookup, hbeq, List.lookup, hbeq]
    · rw [upsert, if_neg h0, List.lookup, List.lookup]
      cases hbeq : k' == k0 with
      | true => rfl
      | false => exact ih

theorem lookup_eq_none_of_not_mem_keys {α : Type} (m : List (String × α)) (k : String)
    (h : k ∉ m.map Prod.fst) : m.lookup k = none := by
  induction m with
  | nil => rfl
  | cons hd rest ih =>
    obtain ⟨k0, v0⟩ := hd
    rw [List.map_cons] at h
    have hne : k ≠ k0 := fun he => h (by rw [he]; exact List.mem_cons_self _ _)
    have hbeq : (k == k0) = false := beq_eq_false_iff_ne.2 hne
    rw [List.lookup, hbeq]
    exact ih (fun hm => h (List.mem_cons_of_mem _ hm))

theorem lookup_addTagsNonEmpty (entries : List (String × String)) (acc : List (String × String))
    (k : String) (hnd : (entries.map Prod.fst).Nodup) :
    (addTagsNonEmpty acc entries).lookup k
      = match entries.lookup k with
        | some v => if v = "" then acc.lookup k else some v
        | none => acc.lookup k := by
  induction entries generalizing acc with
  | nil => rfl
  | cons hd rest ih =>
    obtain ⟨k0, v0⟩ := hd
    have hk0 : k0 ∉ rest.map Prod.fst := by
      rw [List.map_cons] at hnd
      exact (List.nodup_cons.1 hnd).1
    have htl : (rest.map Prod.fst).Nodup := by
      rw [List.map_cons] at hnd
      exact (List.nodup_cons.1 hnd).2
    have hstep : addTagsNonEmpty acc ((k0, v0) :: rest)
        = addTagsNonEmpty (if v0 ≠ "" then upsert acc k0 v0 else acc) rest := by
      rw [addTagsNonEmpty, List.foldl_cons]
      rfl
    rw [hstep, ih _ htl]
    by_cases hk : k = k0
    · subst hk
      have hrest : rest.lookup k = none := lookup_eq_none_of_not_mem_keys rest k hk0
      rw [hrest]
      have hhd : List.lookup k ((k, v0) :: rest) = some v0 := by
        simp [List.lookup]
      rw [hhd]
      by_cases hv : v0 = ""
      · simp [hv]
      · simp only [hv, if_false, ite_false, ne_eq, not_false_eq_true, if_true, ite_true]
        exact lookup_upsert_self acc k v0
    · have hbeq : (k == k0) = false := beq_eq_false_iff_ne.2 hk
      have hhd : List.lookup k ((k0, v0) :: rest) = rest.lookup k := by
        rw [List.lookup, hbeq]
      rw [hhd]
      have hacc : (if v0 ≠ "" then upsert acc k0 v0 else acc).lookup k = acc.lookup k := by
        by_cases hv : v0 = ""
        · rw [if_neg (by simp [hv])]
        · rw [if_pos hv]
          exact lookup_upsert_other acc k0 v0 k hk
      rw [hacc]

/-- Helper stating the claim's merged-tag rule: keep an optional value only
when it is non-empty. -/
def dropEmptyVal : Option String → Option String
  | some v => if v = "" then none else some v
  | none => none

/-- The claim's finalized-tag rule: the point's own tag wins when
non-empty, else the base tag when non-empty, else nothing. -/
def firstNonEmptyTag (pointVal baseVal : Option String) : Option String :=
  match dropEmptyVal pointVal with
  | some v => some v
  | none => dropEmptyVal baseVal

theorem finalizePoint_tags_lookup (base : List (String × String)) (p : Point) (k : String)
    (hb : (base.map Prod.fst).Nodup) (hp : (p.tags.map Prod.fst).Nodup) :
    ((finalizePoint base p).tags).lookup k
      = firstNonEmptyTag (p.tags.lookup k) (base.lookup k) := by
  have hinner : (addTagsNonEmpty [] base).lookup k = dropEmptyVal (base.lookup k) := by
    rw [lookup_addTagsNonEmpty base [] k hb]
    cases hbk : base.lookup k with
    | none => rfl
    | some w =>
      by_cases hw : w = ""
      · simp [dropEmptyVal, hw, List.lookup]
      · simp [dropEmptyVal, hw]
  show (addTagsNonEmpty (addTagsNonEmpty [] base) p.tags).lookup k = _
  rw [lookup_addTagsNonEmpty p.tags _ k hp, hinner]
  cases hpk : p.tags.lookup k with
  | none => rfl
  | some v =>
    by_cases hv : v = ""
    · simp [firstNonEmptyTag, dropEmptyVal, hv]
    · simp [firstNonEmptyTag, dropEmptyVal, hv]

/-- C9. Metrics batching trigger: for every batch size `N ≥ 1`, an arriving
group of points is finalized (base tags merged under the point's own tags,
point tags winning on key collision, empty values omitted) and appended to
the buffer, and a flush happens if and only if the resulting buffer length
(prior buffer plus incoming points) is at least `N`; below the threshold
the buffer is exactly the old buffer plus the finalized points, unflushed. -/
theorem metrics_batching_trigger :
    ∀ (base : List (String × String)) (N : Nat) (buffer incoming : List Point)
      (o : HttpOutcome), 1 ≤ N →
      ((enqueuePoints base N buffer incoming o).2.1 = true
          ↔ N ≤ buffer.length + incoming.length)
      ∧ (buffer.length + incoming.length < N →
          enqueuePoints base N buffer incoming o
            = (buffer ++ incoming.map (finalizePoint base), false, none))
      ∧ (∀ p ∈ incoming, ∀ k, (base.map Prod.fst).Nodup → (p.tags.map Prod.fst).Nodup →
          ((finalizePoint base p).tags).lookup k
            = firstNonEmptyTag (p.tags.lookup k) (base.lookup k)) := by
  intro base N buffer incoming o _
  have hlen : (buffer ++ incoming.map (finalizePoint base)).length
      = buffer.length + incoming.length := by
    rw [List.length_append, List.length_map]
  refine ⟨?_, ?_, ?_⟩
  · by_cases h : N ≤ buffer.length + incoming.length
    · rw [enqueuePoints, if_pos (by rw [hlen]; exact h)]
      simpa using h
    · rw [enqueuePoints, if_neg (by rw [hlen]; exact h)]
      simpa using h
  · intro h
    rw [enqueuePoints, if_neg (by rw [hlen]; omega)]
  · intro p _ k hb hp
    exact finalizePoint_tags_lookup base p k hb hp

/-- Closed witness for C9: with batch size 2, two incoming points flush a
previously empty buffer, one does not, and a point tag overrides a base tag
while an empty point tag value leaves the base tag in place. -/
theorem metrics_batching_trigger_witness :
    (enqueuePoints [("host", "h")] 2 []
        [⟨"m", [], [("a", .intVal 1)], none⟩, ⟨"m", [], [("a", .intVal 2)], none⟩]
        .requestError).2.1 = true
    ∧ (enqueuePoints [("host", "h")] 2 [] [⟨"m", [], [("a", .intVal 1)], none⟩]
        .requestError).2.1 ≠ true
    ∧ ((finalizePoint [("host", "h")] ⟨"m", [("host", "x"), ("dc", "")], [], none⟩).tags).lookup "host"
        = firstNonEmptyTag (some "x") (some "h")
    ∧ ((finalizePoint [("host", "h")] ⟨"m", [("host", "x"), ("dc", "")], [], none⟩).tags).lookup "dc"
        = firstNonEmptyTag (some "") none := by
  refine ⟨?_, ?_, ?_, ?_⟩
  · exact (metrics_batching_trigger [("host", "h")] 2 []
      [⟨"m", [], [("a", .intVal 1)], none⟩, ⟨"m", [], [("a", .intVal 2)], none⟩]
      .requestError (by decide)).1.2 (by decide)
  · intro hcontra
    have h2 := (metrics_batching_trigger [("host", "h")] 2 [] [⟨"m", [], [("a", .intVal 1)], none⟩]
      .requestError (by decide)).1.1 hcontra
    simp at h2
  · exact (metrics_batching_trigger [("host", "h")] 2 []
      [⟨"m", [("host", "x"), ("dc", "")], [], none⟩] .requestError (by decide)).2.2
      ⟨"m", [("host", "x"), ("dc", "")], [], none⟩ (by simp) "host" (by decide) (by decide)
  · exact (metrics_batching_trigger [("host", "h")] 2 []
      [⟨"m", [("host", "x"), ("dc", "")], [], none⟩] .requestError (by decide)).2.2
      ⟨"m", [("host", "x"), ("dc", "")], [], none⟩ (by simp) "dc" (by decide) (by decide)

end Influx

/-! ## pg migrations (src/pg/migrations.go, src/pg/client.go) -/

namespace Pg

open GoOrd

/-- `pg.Migration` (src/pg/migrations.go): schema, version (the file
basename), and the SQL text. -/
structure Migration where
  Schema : String
  Version : String
  Code : String
deriving DecidableEq

/-- `Migrations.Sort` (src/pg/migrations.go): `sort.Slice` with the strict
less `ms[i].Version < ms[j].Version` yields a permutation ordered by the
non-strict byte-lexicographic `strLe` on versions (ties, impossible for a
directory of distinct file names, are ordered arbitrarily by Go's unstable
sort and by insertion here). -/
def sortMigrations (ms : List Migration) : List Migration :=
  List.insertionSort (fun a b => strLe a.Version b.Version) ms

/-- `Migrations.RejectVersions` (src/pg/migrations.go): drop every
migration whose version is in the applied set. -/
def rejectVersions (ms : List Migration) (versions : List String) : List Migration :=
  ms.filter (fun m => !(versions.contains m.Version))

/-- The pure selection-and-ordering pipeline of `Client.UpdateSchema`
(src/pg/client.go): reject the versions already present in
`schema_versions`, then sort; the migrations are applied in the order of
the resulting list. -/
def updateSchemaPlan (ms : List Migration) (applied : List String) : List Migration :=
  sortMigrations (rejectVersions ms applied)

/-- C7. Migration selection and ordering: for every set of loaded
migrations and every set of already-applied versions, `UpdateSchema`
applies exactly the migrations whose version is not in the applied set
(the plan is a permutation of that filtered list), in ascending
byte-lexicographic order of their version strings; and in the literal case
with versions `20220101T000000Z`, `20220102T000000Z`, `20220103T000000Z`
and the second already recorded, only the first and the third are applied,
in that order. -/
theorem migration_selection_ordering :
    (∀ (ms : List Migration) (applied : List String),
      List.Sorted (fun a b => strLe a.Version b.Version) (updateSchemaPlan ms applied)
      ∧ List.Perm (updateSchemaPlan ms applied) (ms.filter (fun m => !(applied.contains m.Version))))
    ∧ updateSchemaPlan
        [⟨"s", "20220101T000000Z", "c1"⟩, ⟨"s", "20220102T000000Z", "c2"⟩,
         ⟨"s", "20220103T000000Z", "c3"⟩]
        ["20220102T000000Z"]
        = [⟨"s", "20220101T000000Z", "c1"⟩, ⟨"s", "20220103T000000Z", "c3"⟩] := by
  constructor
  · intro ms applied
    haveI : IsTotal Migration (fun a b => strLe a.Version b.Version) :=
      ⟨fun a b => total_of strLe a.Version b.Version⟩
    haveI : IsTrans Migration (fun a b => strLe a.Version b.Version) :=
      ⟨fun a b c hab hbc => trans_of strLe hab hbc⟩
    refine ⟨List.sorted_insertionSort _ _, ?_⟩
    show List.Perm (List.insertionSort (fun a b : Migration => strLe a.Version b.Version)
      (rejectVersions ms applied)) _
    exact List.perm_insertionSort (fun a b : Migration => strLe a.Version b.Version)
      (rejectVersions ms applied)
  · decide

end Pg

/-! ## dhttp client-address resolution (src/dhttp/server.go) -/

namespace Dhttp

/-- The request data `requestClientAddress` (src/dhttp/server.go) reads:
the `X-Real-IP` header, the `X-Forwarded-For` header (an absent header
reads as the empty string, as with Go's `Header.Get`), and the remote
peer address. -/
structure Request where
  xRealIP : String
  xForwardedFor : String
  remoteAddr : String
deriving DecidableEq

/-- `strings.Index(v, ", ")`: position of the first occurrence of a comma
followed by a space, `none` when there is none. -/
def idxCommaSpace : List Char → Option Nat
  | [] => none
  | [_] => none
  | c₁ :: c₂ :: rest =>
    if c₁ = ',' ∧ c₂ = ' ' then some 0
    else (idxCommaSpace (c₂ :: rest)).map (· + 1)

/-- Index of the last occurrence of a character (`last` in Go's
`net.SplitHostPort`). -/
def lastIndexC : List Char → Char → Option Nat
  | [], _ => none
  | c :: rest, ch =>
    match lastIndexC rest ch with
    | some i => some (i + 1)
    | none => if c = ch then some 0 else none

/-- Index of the first occurrence of a character (`byteIndex` in Go's
`net.SplitHostPort`). -/
def firstIndexC : List Char → Char → Option Nat
  | [], _ => none
  | c :: rest, ch => if c = ch then some 0 else (firstIndexC rest ch).map (· + 1)

/-- Go's `net.SplitHostPort` (standard library, called by
`requestClientAddress`): split `host:port` at the last colon, with
square-bracket literals for IPv6 hosts; every error return is `none`. -/
def splitHostPort (hostPort : String) : Option (String × String) :=
  let l := hostPort.data
  match lastIndexC l ':' with
  | none => none
  | some i =>
    if l.headI = '[' then
      match firstIndexC l ']' with
      | none => none
      | some e =>
        if e + 1 = l.length then none
        else if e + 1 = i then
          if (l.drop 1).contains '[' || (l.drop (e + 1)).contains ']' then none
          else some (⟨(l.drop 1).take (e - 1)⟩, ⟨l.drop (i + 1)⟩)
        else none
    else
      if (l.take i).contains ':' then none
      else if l.contains '[' || l.contains ']' then none
      else some (⟨l.take i⟩, ⟨l.drop (i + 1)⟩)

/-- `requestClientAddress` (src/dhttp/server.go): `X-Real-IP` when
non-empty; else the part of `X-Forwarded-For` before the first `", "`
(the whole header when `", "` does not occur); else the host portion of
the remote address, empty when it does not parse as `host:port`. -/
def requestClientAddress (req : Request) : String :=
  if req.xRealIP ≠ "" then req.xRealIP
  else if req.xForwardedFor ≠ "" then
    match idxCommaSpace req.xForwardedFor.data with
    | none => req.xForwardedFor
    | some i => ⟨req.xForwardedFor.data.take i⟩
  else
    match splitHostPort req.remoteAddr with
    | some hp => hp.1
    | none => ""

/-- Splitting on the two-character separator `", "`, following the
amended claim's words. -/
def splitCommaSpace : List Char → List (List Char)
  | [] => [[]]
  | [c] => [[c]]
  | c₁ :: c₂ :: rest =>
    if c₁ = ',' ∧ c₂ = ' ' then [] :: splitCommaSpace rest
    else (c₁ :: (splitCommaSpace (c₂ :: rest)).headI) :: (splitCommaSpace (c₂ :: rest)).tail

/-- The first entry of a `", "`-separated header value. -/
def forwardedForFirstEntry (s : String) : String :=
  ⟨(splitCommaSpace s.data).headI⟩

theorem take_idxCommaSpace_eq_headI (l : List Char) :
    (match idxCommaSpace l with
      | none => l
      | some i => l.take i) = (splitCommaSpace l).headI := by
  induction l with
  | nil => rfl
  | cons c₁ rest ih =>
    cases rest with
    | nil => rfl
    | cons c₂ rest' =>
      by_cases h : c₁ = ',' ∧ c₂ = ' '
      · rw [idxCommaSpace, splitCommaSpace, if_pos h, if_pos h]
        rfl
      · rw [idxCommaSpace, splitCommaSpace, if_neg h, if_neg h]
        cases hidx : idxCommaSpace (c₂ :: rest') with
        | none =>
          rw [hidx] at ih
          simp only [Option.map_none, List.headI]
          exact congrArg (c₁ :: ·) ih
        | some i =>
          rw [hidx] at ih
          simp only [Option.map_some, List.headI, List.take_succ_cons]
          exact congrArg (c₁ :: ·) ih

/-- C8 counterexample: with `X-Real-IP` absent and
`X-Forwarded-For: "1.1.1.1,2.2.2.2"` (comma with no following space), the
code returns the whole header value, not the first comma-separated entry
`"1.1.1.1"` the claim requires. -/
theorem client_address_counterexample :
    requestClientAddress ⟨"", "1.1.1.1,2.2.2.2", "9.9.9.9:443"⟩ = "1.1.1.1,2.2.2.2"
    ∧ "1.1.1.1,2.2.2.2" ≠ "1.1.1.1" := by decide

/-- C8 (amended: the forwarded-for entries are separated by `", "` — a
comma followed by a space — and when that separator does not occur the
whole header value is returned).  Resolution order: non-empty `X-Real-IP`
first; else the first `", "`-separated entry of a non-empty
`X-Forwarded-For`; else the host portion of the remote address, empty
when `SplitHostPort` fails.  Literals: `X-Forwarded-For "1.1.1.1, 2.2.2.2"`
with `RemoteAddr "9.9.9.9:443"` resolves to `1.1.1.1`; with only
`RemoteAddr` it resolves to `9.9.9.9`. -/
theorem client_address_resolution :
    (∀ req : Request,
      (req.xRealIP ≠ "" → requestClientAddress req = req.xRealIP)
      ∧ (req.xRealIP = "" → req.xForwardedFor ≠ "" →
          requestClientAddress req = forwardedForFirstEntry req.xForwardedFor)
      ∧ (req.xRealIP = "" → req.xForwardedFor = "" →
          requestClientAddress req = (match splitHostPort req.remoteAddr with
            | some hp => hp.1
            | none => "")))
    ∧ requestClientAddress ⟨"", "1.1.1.1, 2.2.2.2", "9.9.9.9:443"⟩ = "1.1.1.1"
    ∧ requestClientAddress ⟨"", "", "9.9.9.9:443"⟩ = "9.9.9.9" := by
  refine ⟨?_, by decide, by decide⟩
  intro req
  refine ⟨?_, ?_, ?_⟩
  · intro h
    rw [requestClientAddress, if_pos h]
  · intro h1 h2
    rw [requestClientAddress, if_neg (by simpa using h1), if_pos h2]
    rw [forwardedForFirstEntry, ← take_idxCommaSpace_eq_headI]
    cases hidx : idxCommaSpace req.xForwardedFor.data with
    | none => rfl
    | some i => rfl
  · intro h1 h2
    rw [requestClientAddress, if_neg (by simpa using h1), if_neg (by simpa using h2)]

/-- Closed witness for the amended C8: one request per branch of the
resolution order. -/
theorem client_address_resolution_witness :
    requestClientAddress ⟨"5.5.5.5", "1.1.1.1, 2.2.2.2", "9.9.9.9:443"⟩ = "5.5.5.5"
    ∧ requestClientAddress ⟨"", "1.1.1.1, 2.2.2.2", "9.9.9.9:443"⟩
        = forwardedForFirstEntry "1.1.1.1, 2.2.2.2"
    ∧ requestClientAddress ⟨"", "", "bad-address"⟩
        = (match splitHostPort "bad-address" with
            | some hp => hp.1
            | none => "") :=
  ⟨(client_address_resolution.1 ⟨"5.5.5.5", "1.1.1.1, 2.2.2.2", "9.9.9.9:443"⟩).1 (by decide),
   (client_address_resolution.1 ⟨"", "1.1.1.1, 2.2.2.2", "9.9.9.9:443"⟩).2.1 rfl (by decide),
   (client_address_resolution.1 ⟨"", "", "bad-address"⟩).2.2 rfl rfl⟩

end Dhttp

/-! ## check validation walker (src/check/check.go) -/

namespace Check

/-- The token values `pointerAppend` (src/check/check.go) accepts: a
string, an `int` (rendered with `strconv.Itoa`), or a `djson.Pointer`
whose tokens are all appended. -/
inductive Token where
  | str (s : String)
  | int (n : Int)
  | ptr (p : List String)
deriving DecidableEq

/-- The pointer tokens one `Token` contributes, per the three cases of
`pointerAppend` (src/check/check.go). -/
def tokenTokens : Token → List String
  | .str s => [s]
  | .int n => [toString n]
  | .ptr p => p

/-- `pointerAppend` (src/check/check.go). -/
def pointerAppend (p : List String) (t : Token) : List String :=
  p ++ tokenTokens t

/-- `check.ValidationError` (src/check/check.go). -/
structure ValidationError where
  pointer : List String
  code : String
  message : String
deriving DecidableEq

/-- `check.Checker` (src/check/check.go): the current pointer and the
accumulated errors. -/
structure Checker where
  pointer : List String
  errors : List ValidationError
deriving DecidableEq

/-- `Checker.Push` (src/check/check.go). -/
def push (t : Token) (c : Checker) : Checker :=
  { c with pointer := pointerAppend c.pointer t }

/-- `Checker.Pop` (src/check/check.go): drop the last pointer token
(`c.Pointer[:len(c.Pointer)-1]`; Go panics on an empty pointer, which no
theorem below exercises). -/
def pop (c : Checker) : Checker :=
  { c with pointer := c.pointer.dropLast }

/-- `Checker.WithChild` (src/check/check.go): push the token, run the
body, pop once (the deferred `Pop` runs on every exit path). -/
def withChild (t : Token) (fn : Checker → Checker) (c : Checker) : Checker :=
  pop (fn (push t c))

/-- `Checker.AddError` (src/check/check.go): append one error holding a
fresh copy of the current pointer extended by the token. -/
def addError (t : Token) (code msg : String) (c : Checker) : Checker :=
  { c with errors := c.errors ++ [⟨pointerAppend c.pointer t, code, msg⟩] }

/-- C5 counterexample: `WithChild` with a two-token `djson.Pointer` token
and a body that does nothing (balanced, no errors) pushes two tokens but
pops only one, so the pointer after the call differs from the pointer
before. -/
theorem with_child_restore_counterexample :
    (withChild (Token.ptr ["a", "b"]) id ⟨[], []⟩).pointer = ["a"]
    ∧ ["a"] ≠ ([] : List String) := by
  constructor
  · rfl
  · simp

/-- C5 (amended: restoration holds for `string` and `int` tokens — and in
general for tokens contributing exactly one pointer token; a
`djson.Pointer` token of length `n` extends the pointer by `n` tokens and
`WithChild` pops only one).  For every checker state and every sequence of
`with_child(token, f)` calls whose tokens contribute one pointer token
each and whose bodies leave the pointer as they found it (balanced
push/pop, any number of recorded errors), the pointer after the sequence
equals the pointer before; and each body runs on the pointer extended by
exactly its call's token. -/
theorem with_child_pointer_restoration :
    (∀ (calls : List (Token × (Checker → Checker))) (c : Checker),
      (∀ tf ∈ calls, (tokenTokens tf.1).length = 1 ∧ ∀ s, (tf.2 s).pointer = s.pointer) →
      (calls.foldl (fun s tf => withChild tf.1 tf.2 s) c).pointer = c.pointer)
    ∧ (∀ (t : Token) (fn : Checker → Checker) (c : Checker),
        withChild t fn c = pop (fn (push t c))
        ∧ (push t c).pointer = c.pointer ++ tokenTokens t) := by
  constructor
  · intro calls
    induction calls with
    | nil => intro c _; rfl
    | cons tf rest ih =>
      intro c h
      have hhd := h tf (List.mem_cons_self _ _)
      have htl : ∀ tf' ∈ rest, (tokenTokens tf'.1).length = 1
          ∧ ∀ s, (tf'.2 s).pointer = s.pointer :=
        fun tf' htf' => h tf' (List.mem_cons_of_mem _ htf')
      rw [List.foldl_cons, ih _ htl]
      obtain ⟨x, hx⟩ := List.length_eq_one.1 hhd.1
      show (pop (tf.2 (push tf.1 c))).pointer = c.pointer
      rw [pop, hhd.2 (push tf.1 c)]
      show (push tf.1 c).pointer.dropLast = c.pointer
      rw [push]
      show (pointerAppend c.pointer tf.1).dropLast = c.pointer
      rw [pointerAppend, hx]
      simp
  · intro t fn c
    exact ⟨rfl, rfl⟩

end Check

namespace Check

/-- Closed witness for the amended C5: a two-call sequence (a string token
with an identity body, an int token with a body recording one error)
restores the pointer, and the body of a call observes the extended
pointer. -/
theorem with_child_pointer_restoration_witness :
    (([(Token.str "a", id),
       (Token.int 3, addError (Token.str "k") "invalid_value" "msg")].foldl
        (fun s tf => withChild tf.1 tf.2 s) (⟨["root"], []⟩ : Checker)).pointer = ["root"])
    ∧ (push (Token.str "a") ⟨["root"], []⟩).pointer
        = ["root"] ++ tokenTokens (Token.str "a") := by
  constructor
  · apply with_child_pointer_restoration.1
    intro tf htf
    rcases List.mem_cons.1 htf with h | h2
    · subst h
      exact ⟨rfl, fun s => rfl⟩
    · rcases List.mem_cons.1 h2 with h | h3
      · subst h
        exact ⟨rfl, fun s => rfl⟩
      · cases h3
  · exact (with_child_pointer_restoration.2 (Token.str "a") id ⟨["root"], []⟩).2

/-- Programs over a `Checker`: the operations of src/check/check.go that
manipulate the pointer and the error list, with `WithChild` carrying a
nested body.  Used to quantify over "subsequent push, pop, with_child or
add_error calls" in C10. -/
inductive Cmd where
  | push (t : Token)
  | pop
  | addError (t : Token) (code msg : String)
  | withChild (t : Token) (body : List Cmd)

mutual

/-- Run one checker operation (src/check/check.go). -/
def runCmd : Cmd → Checker → Checker
  | .push t, c => push t c
  | .pop, c => pop c
  | .addError t code msg, c => addError t code msg c
  | .withChild t body, c => pop (runCmds body (push t c))

/-- Run a sequence of checker operations. -/
def runCmds : List Cmd → Checker → Checker
  | [], c => c
  | cmd :: rest, c => runCmds rest (runCmd cmd c)

end

mutual

theorem errors_prefix_runCmd : ∀ (cmd : Cmd) (c : Checker),
    c.errors <+: (runCmd cmd c).errors
  | .push _, _ => List.prefix_refl _
  | .pop, _ => List.prefix_refl _
  | .addError t code msg, c => ⟨[⟨pointerAppend c.pointer t, code, msg⟩], rfl⟩
  | .withChild t body, c => errors_prefix_runCmds body (push t c)

theorem errors_prefix_runCmds : ∀ (cs : List Cmd) (c : Checker),
    c.errors <+: (runCmds cs c).errors
  | [], _ => List.prefix_refl _
  | cmd :: rest, c =>
    (errors_prefix_runCmd cmd c).trans (errors_prefix_runCmds rest (runCmd cmd c))

end

/-- C10. Recorded errors are immutable snapshots: `AddError` appends — at
the end of the error list, so errors accumulate in insertion order — one
error holding a fresh copy of the current pointer extended by the given
token, leaving the pointer itself unchanged; and every sequence of
subsequent `push`, `pop`, `with_child` or `add_error` operations keeps all
previously recorded errors (their stored pointers included) as an
unchanged prefix of the error list. -/
theorem recorded_errors_immutable :
    (∀ (t : Token) (code msg : String) (c : Checker),
      (addError t code msg c).errors
        = c.errors ++ [⟨pointerAppend c.pointer t, code, msg⟩]
      ∧ (addError t code msg c).pointer = c.pointer)
    ∧ (∀ (cs : List Cmd) (c : Checker), c.errors <+: (runCmds cs c).errors) :=
  ⟨fun _ _ _ _ => ⟨rfl, rfl⟩, errors_prefix_runCmds⟩

end Check
